import Mathlib

/-!
Verification of the `nd-slice` N-dimensional array library.

The library represents an owned array (`NDBox`) as a row-major allocation of
`size(len)` elements, and views (`NDSlice`, `NDSliceMut`) as a
(pointer, length vector, stride vector) triple.  We embed a view as an
`RView`: the pointer becomes a `Nat` offset from the start of the backing
allocation, and the fixed-size `[usize; N]` vectors become `List Nat` of
length `N`.  Fallible operations (the Rust `assert!`s) become
`Except String` values carrying the exact panic message.
-/

namespace NDS

/-- `Bounds` from the source: a range along a dimension plus a step.
`stop` is the source's `end` field (a reserved word in Lean). -/
structure Bounds where
  start : Option Nat
  stop : Option Nat
  step : Nat
deriving DecidableEq, Repr

/-- `Bounds::all()`: `Self { start: None, end: None, step: 1 }`. -/
def Bounds.all : Bounds := ⟨none, none, 1⟩

/-- `Len::size`: the number of elements, the product of all dimension lengths. -/
def size (len : List Nat) : Nat := len.prod

/-- `Len::default_stride`: row-major strides.  The source computes them by a
reversed loop (`next_stride` starts at 1 and is multiplied by each dimension
length from the last to the first), so dimension `d` gets the product of the
lengths of all dimensions after `d`. -/
def default_stride : List Nat → List Nat
  | [] => []
  | _ :: ls => size ls :: default_stride ls

/-- The offset computed by `NDSlice::location`:
`Σ dimension_index * dimension_stride` over `iter::zip(index, stride)`. -/
def location_offset (index stride : List Nat) : Nat :=
  (List.zipWith (· * ·) index stride).sum

/-- `NDSlice::check_index`: every dimension index is less than the
corresponding dimension length. -/
def check_index (index len : List Nat) : Bool :=
  (List.zip index len).all fun p => decide (p.1 < p.2)

/-- A read view: base offset into the backing allocation, length vector,
stride vector (the `NDSlice` fields, with the pointer as an offset).
`NDSliceMut` has the same geometry fields, so it is covered by the same type. -/
structure RView where
  off : Nat
  len : List Nat
  stride : List Nat
deriving DecidableEq, Repr

/-- Rust's `{:?}` rendering of a `[usize; N]`, e.g. `[3, 4]`. -/
def fmtNatList (l : List Nat) : String :=
  "[" ++ String.intercalate ", " (l.map toString) ++ "]"

/-- Rust's `{:?}` rendering of `Len`, e.g. `Len([3, 4])`. -/
def fmtLen (l : List Nat) : String := "Len(" ++ fmtNatList l ++ ")"

/-- Rust's `{:?}` rendering of `Index`, e.g. `Index([3, 4])`. -/
def fmtIndex (l : List Nat) : String := "Index(" ++ fmtNatList l ++ ")"

/-- The length of `(start..stop).step_by(step)` (Rust `StepBy` of a range):
0 if the range is empty, else `(stop - start - 1) / step + 1`. -/
def step_count (start stop step : Nat) : Nat :=
  if stop - start = 0 then 0 else (stop - start - 1) / step + 1

/-- The resolved start of a bounds value: `start.unwrap_or(0)`. -/
def resolved_start (b : Bounds) : Nat := b.start.getD 0

/-- The resolved exclusive end of a bounds value: `end.unwrap_or(len)`. -/
def resolved_stop (b : Bounds) (dimension_len : Nat) : Nat :=
  b.stop.getD dimension_len

/-- The message of the per-dimension range assert of `NDSlice::slice`:
`"range {:?} out of bounds for dimension of len {}"` with the `Range`
debug rendering `start..end`. -/
def range_message (b : Bounds) (dimension_len : Nat) : String :=
  "range " ++ toString (resolved_start b) ++ ".." ++
    toString (resolved_stop b dimension_len) ++
    " out of bounds for dimension of len " ++ toString dimension_len

/-- The per-dimension body of `NDSlice::slice`: resolve `start` (default 0)
and `end` (default the dimension length), check `start <= end <= len`
(else the `range .. out of bounds ..` panic), then step through the range
(`step_by` panics with `assertion failed: step != 0` when the step is 0).
Returns (start, new length, new stride). -/
def slice_dimension (b : Bounds) (dimension_len dimension_stride : Nat) :
    Except String (Nat × Nat × Nat) :=
  if resolved_start b ≤ resolved_stop b dimension_len ∧
      resolved_stop b dimension_len ≤ dimension_len then
    if b.step = 0 then Except.error "assertion failed: step != 0"
    else Except.ok (resolved_start b,
      step_count (resolved_start b) (resolved_stop b dimension_len) b.step,
      dimension_stride * b.step)
  else Except.error (range_message b dimension_len)

/-- `NDSlice::slice` processes the dimensions in order (the Rust `map` over
the zipped fixed-size arrays); the first failing dimension's panic wins. -/
def slice_axes : List Bounds → List Nat → List Nat →
    Except String (List (Nat × Nat × Nat))
  | [], [], [] => Except.ok []
  | b :: bs, l :: ls, s :: ss => do
    let d ← slice_dimension b l s
    let ds ← slice_axes bs ls ss
    return d :: ds
  | _, _, _ => Except.error "rank mismatch"

/-- `NDSlice::slice`: the new base pointer is `location` at the per-dimension
starts (using the original strides), the new lengths and strides come from
`slice_dimension`. -/
def NDSlice.slice (v : RView) (bounds : List Bounds) : Except String RView := do
  let dims ← slice_axes bounds v.len v.stride
  return ⟨v.off + location_offset (dims.map fun d => d.1) v.stride,
    dims.map fun d => d.2.1, dims.map fun d => d.2.2⟩

/-- `NDSlice::extract`: fix dimension `D` at `dimension_index`.  The assert
produces the `index .. out of bounds for dimension of len ..` panic; on
success the base pointer advances by `location` of the index that is zero
everywhere except `dimension_index` at `D`, and position `D` is removed from
the length and stride vectors (`util::remove`). -/
def NDSlice.extract (v : RView) (D dimension_index : Nat) : Except String RView :=
  if dimension_index < v.len.getD D 0 then
    Except.ok ⟨v.off + dimension_index * v.stride.getD D 0,
      v.len.eraseIdx D, v.stride.eraseIdx D⟩
  else Except.error ("index " ++ toString dimension_index ++
    " out of bounds for dimension of len " ++ toString (v.len.getD D 0))

/-- `NDSlice::add_dimension`: insert a new dimension of the given length at
position `D` with stride 0 (`util::insert`). -/
def NDSlice.add_dimension (v : RView) (D dimension_len : Nat) : RView :=
  ⟨v.off, v.len.insertIdx D dimension_len, v.stride.insertIdx D 0⟩

/-- `NDSlice::transpose`: reverse both the length and the stride vector. -/
def NDSlice.transpose (v : RView) : RView :=
  ⟨v.off, v.len.reverse, v.stride.reverse⟩

/-- One step of `IndexIterator::next`: walk `iter::zip(index, len)` from the
last dimension towards the first, incrementing, and resetting to 0 and
carrying while the incremented index reaches the dimension length.  Returns
the new index together with whether the carry ran past the first dimension. -/
def IndexIterator.step (len index : List Nat) : List Nat × Bool :=
  match len, index with
  | l :: ls, i :: is =>
    let r := IndexIterator.step ls is
    if r.2 then
      if i + 1 < l then ((i + 1) :: r.1, false) else (0 :: r.1, true)
    else (i :: r.1, false)
  | _, _ => ([], true)

/-- The `k`-th item of the infinite `IndexIterator` sequence: it starts at
all-zeros (`IndexIterator::new`), and `next` returns the current index and
advances by `IndexIterator.step`.  Totality of this function models that
`next` always returns `Some`. -/
def IndexIterator.nth (len : List Nat) : Nat → List Nat
  | 0 => List.replicate len.length 0
  | k + 1 => (IndexIterator.step len (IndexIterator.nth len k)).1

/-- `NDSlice::indices` on a length vector: the infinite iterator limited to
`size(len)` items (`take(len.size())`). -/
def indices_list (len : List Nat) : List (List Nat) :=
  (List.range (size len)).map (IndexIterator.nth len)

/-- `NDSlice::indices`. -/
def NDSlice.indices (v : RView) : List (List Nat) := indices_list v.len

/-- The value `NDSlice::get_unchecked` reads: the element of the backing
allocation at `location(index)`.  `none` models a read outside the
allocation (undefined behavior in the source). -/
def read_element (data : List α) (v : RView) (index : List Nat) : Option α :=
  data[v.off + location_offset index v.stride]?

/-- `NDSlice::get`: `None` unless `check_index` passes, else the element. -/
def NDSlice.get (data : List α) (v : RView) (index : List Nat) : Option α :=
  if check_index index v.len then read_element data v index else none

/-- `NDSlice::index`: asserts `check_index`, panicking with
`"{:?} out of bounds for {:?}"` of the `Index` and the `Len`. -/
def NDSlice.index (data : List α) (v : RView) (index : List Nat) :
    Except String (Option α) :=
  if check_index index v.len then Except.ok (read_element data v index)
  else Except.error (fmtIndex index ++ " out of bounds for " ++ fmtLen v.len)

/-- The values produced by `NDSlice::iter` (and so by `IntoIterator`):
each index of `indices()` in order, read through `location`. -/
def NDSlice.iter (data : List α) (v : RView) : List (Option α) :=
  (NDSlice.indices v).map (read_element data v)

/-- `NDIntoIterator::zip`: asserts the two length vectors are equal,
panicking with `"Cannot operate on NDSlices with {:?} and {:?}"`, then pairs
the two item sequences positionally (`iter::zip`). -/
def NDIntoIterator.zip (len1 : List Nat) (items1 : List α)
    (len2 : List Nat) (items2 : List β) : Except String (List (α × β)) :=
  if len1 = len2 then Except.ok (items1.zip items2)
  else Except.error ("Cannot operate on NDSlices with " ++ fmtLen len1 ++
    " and " ++ fmtLen len2)

/-- `NDIntoIterator::zip_map`: `zip` then map the pairing function.
All binary elementwise operators and the compound assignments iterate the
pairs produced by `zip`, so they fail exactly when it does. -/
def NDIntoIterator.zip_map (len1 : List Nat) (items1 : List α)
    (len2 : List Nat) (items2 : List β) (f : α → β → γ) :
    Except String (List γ) := do
  let pairs ← NDIntoIterator.zip len1 items1 len2 items2
  return pairs.map fun p => f p.1 p.2

/-- `PartialEq for NDSlice`:
`self.len == other.len && self.zip(*other).all(|(lhs, rhs)| lhs == rhs)`.
The `&&` short-circuits, so `zip` (with its length assert) only runs when
the length vectors are equal. -/
def ndslice_eq [DecidableEq α] (data1 : List α) (v1 : RView)
    (data2 : List α) (v2 : RView) : Bool :=
  decide (v1.len = v2.len) &&
    match NDIntoIterator.zip v1.len (NDSlice.iter data1 v1)
        v2.len (NDSlice.iter data2 v2) with
    | Except.ok pairs => pairs.all fun p => decide (p.1 = p.2)
    | Except.error _ => false

/-- `NDBox`: the length vector together with the row-major backing
allocation (`Box<[T]>` of `size(len)` elements). -/
structure NDBox (α : Type) where
  len : List Nat
  data : List α
deriving DecidableEq, Repr

/-- `NDBox::new_with`: one element per index of the infinite index iterator,
zipped against the `size(len)` allocated slots, i.e. `init` applied to each
of the first `size(len)` indices in order. -/
def NDBox.new_with (len : List Nat) (init : List Nat → α) : NDBox α :=
  ⟨len, (indices_list len).map init⟩

/-- `NDBox::as_slice` (and `as_mut`): a view of the whole allocation with
the default row-major stride. -/
def NDBox.as_slice (b : NDBox α) : RView := ⟨0, b.len, default_stride b.len⟩

/-- `matrix_product`: destructure the two length vectors as `[length0,
inner_length1]` and `[inner_length2, length1]`, assert the inner lengths
match (panicking with `"Cannot multiply matrices of {:?} and {:?}"`), and
build the `[length0, length1]` result whose `[index0, index1]` cell is
`Σ matrix1[index0, m] * matrix2[m, index1]` over the inner range.  Element
reads go through `location`; the `getD 0` default is never reached for
views whose reads stay inside the allocation. -/
def matrix_product [NonAssocSemiring α] (data1 : List α) (matrix1 : RView)
    (data2 : List α) (matrix2 : RView) : Except String (NDBox α) :=
  match matrix1.len, matrix2.len with
  | [length0, inner_length1], [inner_length2, length1] =>
    if inner_length1 = inner_length2 then
      Except.ok (NDBox.new_with [length0, length1] fun c =>
        ((List.range inner_length1).map fun inner_index =>
          (read_element data1 matrix1 [c.getD 0 0, inner_index]).getD 0 *
          (read_element data2 matrix2 [inner_index, c.getD 1 0]).getD 0).sum)
    else Except.error ("Cannot multiply matrices of " ++ fmtLen matrix1.len ++
      " and " ++ fmtLen matrix2.len)
  | _, _ => Except.error "matrix_product requires 2-dimensional slices"

/-- The identity matrix of the tests: `new_with [n, n] (fun [i, j] =>
if i = j then 1 else 0)`. -/
def identity_matrix (α : Type) [NonAssocSemiring α] (n : Nat) : NDBox α :=
  NDBox.new_with [n, n] fun c => if c.getD 0 0 = c.getD 1 0 then 1 else 0

/-- The views derivable from an owned array of length vector `len0` by
`as_slice`/`as_mut` followed by any sequence of successful `slice`,
`extract`, `add_dimension`, and `transpose` calls. -/
inductive Derived (len0 : List Nat) : RView → Prop where
  | base : Derived len0 ⟨0, len0, default_stride len0⟩
  | slice {v : RView} {bounds : List Bounds} {v2 : RView} :
      Derived len0 v → NDSlice.slice v bounds = Except.ok v2 → Derived len0 v2
  | extract {v : RView} {D i : Nat} {v2 : RView} : Derived len0 v →
      D < v.len.length → NDSlice.extract v D i = Except.ok v2 → Derived len0 v2
  | add_dimension {v : RView} {D l : Nat} : Derived len0 v →
      D ≤ v.len.length → Derived len0 (NDSlice.add_dimension v D l)
  | transpose {v : RView} : Derived len0 v → Derived len0 (NDSlice.transpose v)

/-- Modelled from the spec: the row-major enumeration of all in-bounds
coordinates ("incrementing the last axis fastest"), used to state what
`indices` must produce. -/
def row_major_indices : List Nat → List (List Nat)
  | [] => [[]]
  | l :: ls => (List.range l).flatMap fun i => (row_major_indices ls).map (i :: ·)

/-- Proof-side description of the `k`-th row-major index: the mixed-radix
digits of `k` with the last dimension fastest. -/
def to_index : List Nat → Nat → List Nat
  | [], _ => []
  | _ :: ls, k => k / size ls :: to_index ls (k % size ls)

/-- The range check of `NDSlice::slice` for one dimension. -/
def range_ok (b : Bounds) (dimension_len : Nat) : Prop :=
  resolved_start b ≤ resolved_stop b dimension_len ∧
    resolved_stop b dimension_len ≤ dimension_len

/-- Both per-dimension checks of `NDSlice::slice`. -/
def axis_ok (b : Bounds) (dimension_len : Nat) : Prop :=
  range_ok b dimension_len ∧ b.step ≠ 0

instance (b : Bounds) (l : Nat) : Decidable (range_ok b l) := by
  unfold range_ok; infer_instance

instance (b : Bounds) (l : Nat) : Decidable (axis_ok b l) := by
  unfold axis_ok; infer_instance

/-- The per-dimension results a successful `slice` produces. -/
def slice_spec_dims (bs : List Bounds) (ls ss : List Nat) :
    List (Nat × Nat × Nat) :=
  List.zipWith3 (fun b l s => (resolved_start b,
    step_count (resolved_start b) (resolved_stop b l) b.step, s * b.step))
    bs ls ss

deriving instance DecidableEq for Except

/-- The 4×4 example array `A` of the tests, flattened in row-major order:
`[[1,-2,3,-4],[-5,6,-7,8],[9,-10,11,-12],[-13,14,-15,16]]`. -/
def A_data : List Int :=
  [1, -2, 3, -4, -5, 6, -7, 8, 9, -10, 11, -12, -13, 14, -15, 16]

/-- The view `A.as_slice()`. -/
def A_view : RView := (NDBox.mk [4, 4] A_data).as_slice

-- Sanity checks on concrete inputs.
example : default_stride [3, 4] = [4, 1] := rfl
example : size [3, 4] = 12 := rfl
example : indices_list [2, 2] = [[0, 0], [0, 1], [1, 0], [1, 1]] := by decide
example : row_major_indices [2, 2] = [[0, 0], [0, 1], [1, 0], [1, 1]] := rfl
example : fmtIndex [3, 4] ++ " out of bounds for " ++ fmtLen [3, 4] =
    "Index([3, 4]) out of bounds for Len([3, 4])" := rfl

/-! ### Basic geometry lemmas -/

theorem default_stride_length (len : List Nat) :
    (default_stride len).length = len.length := by
  induction len with
  | nil => rfl
  | cons l ls ih => simp [default_stride, ih]

theorem location_offset_nil (s : List Nat) : location_offset [] s = 0 := rfl

theorem location_offset_cons (i s : Nat) (is ss : List Nat) :
    location_offset (i :: is) (s :: ss) = i * s + location_offset is ss := rfl

theorem size_cons (l : Nat) (ls : List Nat) : size (l :: ls) = l * size ls :=
  List.prod_cons

/-- The offset of an in-bounds index against the default row-major stride is
inside the allocation. -/
theorem offset_default_stride_lt {c len : List Nat}
    (h : List.Forall₂ (· < ·) c len) :
    location_offset c (default_stride len) < size len := by
  induction h with
  | nil => simp [location_offset, size]
  | @cons i l is ls hil _ ih =>
    have h1 : i * size ls + location_offset is (default_stride ls) <
        (i + 1) * size ls := by
      have := ih
      calc i * size ls + location_offset is (default_stride ls)
          < i * size ls + size ls := by omega
        _ = (i + 1) * size ls := by ring
    calc location_offset (i :: is) (default_stride (l :: ls))
        = i * size ls + location_offset is (default_stride ls) := rfl
      _ < (i + 1) * size ls := h1
      _ ≤ l * size ls := Nat.mul_le_mul_right _ hil
      _ = size (l :: ls) := (size_cons l ls).symm

theorem check_index_iff {c len : List Nat} (h : c.length = len.length) :
    check_index c len = true ↔ List.Forall₂ (· < ·) c len := by
  induction c generalizing len with
  | nil =>
    cases len with
    | nil => simp [check_index]
    | cons l ls => simp at h
  | cons i is ih =>
    cases len with
    | nil => simp at h
    | cons l ls =>
      simp only [List.length_cons, Nat.add_right_cancel_iff] at h
      simp [check_index, List.forall₂_cons, ← ih h, check_index, List.all_cons]

theorem forall₂_insertIdx {R : Nat → Nat → Prop} :
    ∀ {D : Nat} {c len : List Nat}, D < len.length →
      R i (len.getD D 0) → List.Forall₂ R c (len.eraseIdx D) →
      List.Forall₂ R (c.insertIdx D i) len
  | 0, c, l :: ls, _, hR, hc => by
    simpa [List.forall₂_cons] using ⟨hR, hc⟩
  | D + 1, c, l :: ls, hD, hR, hc => by
    simp only [List.eraseIdx_cons_succ] at hc
    rcases hc with _ | ⟨hcl, hcs⟩
    simp only [List.insertIdx_succ_cons, List.forall₂_cons]
    exact ⟨hcl, forall₂_insertIdx (by simpa using hD) (by simpa using hR) (by assumption)⟩

theorem forall₂_eraseIdx {R : Nat → Nat → Prop} :
    ∀ {D : Nat} {c len : List Nat} {x : Nat},
      List.Forall₂ R c (len.insertIdx D x) →
      List.Forall₂ R (c.eraseIdx D) len
  | 0, c, len, x, hc => by
    rcases hc with _ | ⟨_, hcs⟩
    simpa using hcs
  | D + 1, c, [], x, hc => by
    cases hc
    exact List.Forall₂.nil
  | D + 1, c, l :: ls, x, hc => by
    simp only [List.insertIdx_succ_cons] at hc
    rcases hc with _ | ⟨hcl, hcs⟩
    simpa [List.forall₂_cons] using ⟨hcl, forall₂_eraseIdx hcs⟩

theorem offset_insertIdx :
    ∀ {D : Nat} {c s : List Nat} {x : Nat}, D ≤ c.length → D < s.length →
      location_offset (c.insertIdx D x) s =
        x * s.getD D 0 + location_offset c (s.eraseIdx D)
  | 0, c, s0 :: ss, x, _, _ => by
    simp [List.insertIdx, location_offset_cons]
  | D + 1, c0 :: cs, s0 :: ss, x, hD, hs => by
    simp only [List.insertIdx_succ_cons, location_offset_cons,
      List.eraseIdx_cons_succ, List.getD_cons_succ]
    rw [offset_insertIdx (by simpa using hD) (by simpa using hs)]
    ring

theorem location_offset_comm (a b : List Nat) :
    location_offset a b = location_offset b a := by
  unfold location_offset
  rw [List.zipWith_comm_of_comm]
  exact fun x y => Nat.mul_comm x y

theorem offset_insert_stride {D : Nat} {c s : List Nat} {x : Nat}
    (hD : D ≤ s.length) (hc : D < c.length) :
    location_offset c (s.insertIdx D x) =
      c.getD D 0 * x + location_offset (c.eraseIdx D) s := by
  rw [location_offset_comm, offset_insertIdx hD hc, location_offset_comm,
    Nat.mul_comm]

theorem location_offset_reverse {c s : List Nat} (h : c.length = s.length) :
    location_offset c.reverse s.reverse = location_offset c s := by
  unfold location_offset
  rw [← List.reverse_zipWith h, List.sum_reverse]

/-! ### Slice characterization lemmas -/

theorem slice_dimension_ok_iff {b : Bounds} {l s : Nat} {d : Nat × Nat × Nat} :
    slice_dimension b l s = Except.ok d ↔
      axis_ok b l ∧ d = (resolved_start b,
        step_count (resolved_start b) (resolved_stop b l) b.step, s * b.step) := by
  unfold slice_dimension axis_ok range_ok
  by_cases h1 : resolved_start b ≤ resolved_stop b l ∧ resolved_stop b l ≤ l
  · by_cases h2 : b.step = 0
    · simp [h1, h2]
    · simp [h1, h2, eq_comm]
  · simp [h1]

theorem slice_dimension_error_range {b : Bounds} {l s : Nat}
    (h : ¬range_ok b l) :
    slice_dimension b l s = Except.error (range_message b l) := by
  unfold range_ok at h
  unfold slice_dimension
  rw [if_neg h]

theorem slice_dimension_error_step {b : Bounds} {l s : Nat}
    (h : range_ok b l) (hs : b.step = 0) :
    slice_dimension b l s = Except.error "assertion failed: step != 0" := by
  unfold range_ok at h
  unfold slice_dimension
  rw [if_pos h, if_pos hs]

/-- An in-range position of the stepped range stays strictly below the
resolved end. -/
theorem start_add_step_lt {start stop step ci : Nat}
    (hci : ci < step_count start stop step) : start + ci * step < stop := by
  unfold step_count at hci
  split at hci
  · omega
  · rename_i hne
    have h1 : ci ≤ (stop - start - 1) / step := by omega
    have h2 : ci * step ≤ (stop - start - 1) / step * step :=
      Nat.mul_le_mul_right step h1
    have h3 : (stop - start - 1) / step * step ≤ stop - start - 1 :=
      Nat.div_mul_le_self _ _
    have h4 : ci * step ≤ stop - start - 1 := le_trans h2 h3
    omega

/-- Offsets computed from a successful `slice_axes` lie over an in-bounds
index of the original view. -/
theorem slice_axes_in_bounds :
    ∀ {bs : List Bounds} {ls ss : List Nat} {dims : List (Nat × Nat × Nat)},
      slice_axes bs ls ss = Except.ok dims →
      ∀ {c : List Nat}, List.Forall₂ (· < ·) c (dims.map fun d => d.2.1) →
      ∃ c0, List.Forall₂ (· < ·) c0 ls ∧
        location_offset (dims.map fun d => d.1) ss +
          location_offset c (dims.map fun d => d.2.2) = location_offset c0 ss
  | [], [], [], dims, hax, c, hc => by
    simp only [slice_axes] at hax
    cases hax
    simp only [List.map_nil] at hc
    cases hc
    exact ⟨[], List.Forall₂.nil, rfl⟩
  | b :: bs, l :: ls, s :: ss, dims, hax, c, hc => by
    simp only [slice_axes, bind, Except.bind] at hax
    cases h1 : slice_dimension b l s with
    | error e => rw [h1] at hax; cases hax
    | ok d =>
      rw [h1] at hax
      cases h2 : slice_axes bs ls ss with
      | error e => rw [h2] at hax; cases hax
      | ok ds =>
        rw [h2] at hax
        simp only [pure, Except.pure, Except.ok.injEq] at hax
        subst hax
        obtain ⟨⟨hr1, hr2⟩, hd⟩ := slice_dimension_ok_iff.mp h1
        subst hd
        simp only [List.map_cons] at hc
        rcases hc with _ | ⟨hci, hcs⟩
        rename_i ci cs
        obtain ⟨c0, hc0, hoff⟩ := slice_axes_in_bounds h2 hcs
        refine ⟨(resolved_start b + ci * b.step) :: c0, ?_, ?_⟩
        · exact List.Forall₂.cons
            (lt_of_lt_of_le (start_add_step_lt hci) hr1.2) hc0
        · simp only [List.map_cons, location_offset_cons]
          rw [← hoff]
          ring
  | [], l :: ls, ss, dims, hax, c, hc => by
    simp only [slice_axes] at hax
    cases ss <;> cases hax
  | b :: bs, [], ss, dims, hax, c, hc => by
    simp only [slice_axes] at hax
    cases ss <;> cases hax
  | [], [], s :: ss, dims, hax, c, hc => by
    simp only [slice_axes] at hax
    cases hax
  | b :: bs, l :: ls, [], dims, hax, c, hc => by
    simp only [slice_axes] at hax
    cases hax

/-- Well-formedness and the allocation invariant for every derived view:
the length and stride vectors have equal rank, and the base offset plus any
in-bounds index-stride product stays strictly inside the `size len0`
elements the owned array allocated. -/
theorem derived_wf_and_in_alloc {len0 : List Nat} {v : RView}
    (h : Derived len0 v) :
    v.len.length = v.stride.length ∧
    ∀ c, List.Forall₂ (· < ·) c v.len →
      v.off + location_offset c v.stride < size len0 := by
  induction h with
  | base =>
    refine ⟨(default_stride_length len0).symm, fun c hc => ?_⟩
    simpa using offset_default_stride_lt hc
  | slice hder hok ih =>
    rename_i v bounds v2
    unfold NDSlice.slice at hok
    simp only [bind, Except.bind] at hok
    cases hax : slice_axes bounds v.len v.stride with
    | error e => rw [hax] at hok; cases hok
    | ok dims =>
      rw [hax] at hok
      simp only [pure, Except.pure, Except.ok.injEq] at hok
      subst hok
      refine ⟨by simp, fun c hc => ?_⟩
      obtain ⟨c0, hc0, hoff⟩ := slice_axes_in_bounds hax hc
      have := ih.2 c0 hc0
      simp only
      omega
  | extract hder hD hok ih =>
    rename_i v D i v2
    unfold NDSlice.extract at hok
    split at hok
    · rename_i hi
      simp only [Except.ok.injEq] at hok
      subst hok
      have hss : D < v.stride.length := ih.1 ▸ hD
      constructor
      · simp only [List.length_eraseIdx_of_lt hD,
          List.length_eraseIdx_of_lt hss, ih.1]
      · intro c hc
        have hclen : c.length = v.len.length - 1 := by
          have := hc.length_eq
          rwa [List.length_eraseIdx_of_lt hD] at this
        have hDc : D ≤ c.length := by omega
        have hc2 : List.Forall₂ (· < ·) (c.insertIdx D i) v.len :=
          forall₂_insertIdx hD hi hc
        have := ih.2 (c.insertIdx D i) hc2
        rw [offset_insertIdx hDc hss] at this
        simp only
        omega
    · cases hok
  | add_dimension hder hD ih =>
    rename_i v D l
    have hDs : D ≤ v.stride.length := ih.1 ▸ hD
    constructor
    · simp only [NDSlice.add_dimension, List.length_insertIdx _ _ hD,
        List.length_insertIdx _ _ hDs, ih.1]
    · intro c hc
      simp only [NDSlice.add_dimension] at hc ⊢
      have hclen : c.length = v.len.length + 1 := by
        have := hc.length_eq
        rwa [List.length_insertIdx _ _ hD] at this
      have hDc : D < c.length := by omega
      rw [offset_insert_stride hDs hDc, Nat.mul_zero, Nat.zero_add]
      exact ih.2 (c.eraseIdx D) (forall₂_eraseIdx hc)
  | transpose hder ih =>
    rename_i v
    refine ⟨by simp [NDSlice.transpose, ih.1], fun c hc => ?_⟩
    simp only [NDSlice.transpose] at hc ⊢
    have hc2 : List.Forall₂ (· < ·) c.reverse v.len := by
      rw [← List.forall₂_reverse_iff]
      simpa using hc
    have hlen : c.length = v.stride.length := by
      have := hc.length_eq
      simpa [ih.1] using this
    have hrev : location_offset c.reverse.reverse v.stride.reverse =
        location_offset c.reverse v.stride :=
      location_offset_reverse (by simpa using hlen)
    rw [List.reverse_reverse] at hrev
    rw [hrev]
    exact ih.2 c.reverse hc2

/-! ### Index enumeration lemmas -/

theorem div_mod_decompose {P q r a : Nat} (hP : 0 < P) (ha : a = P * q + r)
    (hr : r < P) : a / P = q ∧ a % P = r :=
  (Nat.div_mod_unique hP).mpr ⟨by omega, hr⟩

theorem step_cons (l : Nat) (ls : List Nat) (i : Nat) (is : List Nat) :
    IndexIterator.step (l :: ls) (i :: is) =
      if (IndexIterator.step ls is).2 then
        if i + 1 < l then ((i + 1) :: (IndexIterator.step ls is).1, false)
        else (0 :: (IndexIterator.step ls is).1, true)
      else (i :: (IndexIterator.step ls is).1, false) := rfl

theorem to_index_cons (l : Nat) (ls : List Nat) (k : Nat) :
    to_index (l :: ls) k = k / size ls :: to_index ls (k % size ls) := rfl

theorem to_index_zero :
    ∀ (len : List Nat), to_index len 0 = List.replicate len.length 0
  | [] => rfl
  | l :: ls => by
    rw [to_index_cons, Nat.zero_div, Nat.zero_mod, to_index_zero ls]
    simp [List.replicate_succ]

/-- One `IndexIterator` step turns the mixed-radix digits of `k` into those
of `k + 1` (wrapping to all-zeros at `size len`), carrying past the first
dimension exactly when `k + 1 = size len`. -/
theorem step_to_index :
    ∀ (len : List Nat) (k : Nat), k < size len →
      IndexIterator.step len (to_index len k) =
        (to_index len ((k + 1) % size len), decide (k + 1 = size len))
  | [], k, hk => by
    have hk0 : k = 0 := by simpa [size] using hk
    subst hk0
    rfl
  | l :: ls, k, hk => by
    rw [size_cons] at hk ⊢
    have hP : 0 < size ls := by
      rcases Nat.eq_zero_or_pos (size ls) with h | h
      · rw [h, Nat.mul_zero] at hk; omega
      · exact h
    have hq : k / size ls < l := (Nat.div_lt_iff_lt_mul hP).mpr hk
    have hr : k % size ls < size ls := Nat.mod_lt k hP
    have e1 : size ls * (k / size ls) + k % size ls = k :=
      Nat.div_add_mod k (size ls)
    have ih := step_to_index ls (k % size ls) hr
    rw [to_index_cons, step_cons, ih]
    by_cases hcarry : k % size ls + 1 = size ls
    · have h0 : (k % size ls + 1) % size ls = 0 := by
        rw [hcarry, Nat.mod_self]
      by_cases hql : k / size ls + 1 < l
      · have h2 : size ls * (k / size ls + 1) < size ls * l :=
          mul_lt_mul_of_pos_left hql hP
        have h3 : size ls * (k / size ls + 1) =
            size ls * (k / size ls) + size ls := Nat.mul_succ _ _
        have h5 : size ls * l = l * size ls := Nat.mul_comm _ _
        have hlt : k + 1 < l * size ls := by omega
        obtain ⟨hdiv, hmod2⟩ := div_mod_decompose hP
          (show k + 1 = size ls * (k / size ls + 1) + 0 by omega) hP
        rw [Nat.mod_eq_of_lt hlt, to_index_cons, hdiv, hmod2, h0, to_index_zero]
        have hne : ¬(k + 1 = l * size ls) := by omega
        simp [hcarry, hql, hne]
      · have hql2 : k / size ls + 1 = l := by omega
        have h3 : size ls * (k / size ls + 1) =
            size ls * (k / size ls) + size ls := Nat.mul_succ _ _
        have h4 : size ls * (k / size ls + 1) = size ls * l := by rw [hql2]
        have h5 : size ls * l = l * size ls := Nat.mul_comm _ _
        have hk1 : k + 1 = l * size ls := by omega
        rw [hk1, Nat.mod_self, h0]
        simp [hcarry, hql, to_index_zero, List.replicate_succ]
    · have hlt2 : k % size ls + 1 < size ls := by omega
      have hmods : (k % size ls + 1) % size ls = k % size ls + 1 :=
        Nat.mod_eq_of_lt hlt2
      have h2 : size ls * (k / size ls + 1) ≤ size ls * l :=
        Nat.mul_le_mul (Nat.le_refl _) (by omega)
      have h3 : size ls * (k / size ls + 1) =
          size ls * (k / size ls) + size ls := Nat.mul_succ _ _
      have h5 : size ls * l = l * size ls := Nat.mul_comm _ _
      have hlt : k + 1 < l * size ls := by omega
      obtain ⟨hdiv, hmod2⟩ := div_mod_decompose hP
        (show k + 1 = size ls * (k / size ls) + (k % size ls + 1) by omega) hlt2
      rw [Nat.mod_eq_of_lt hlt, to_index_cons, hdiv, hmod2, hmods]
      have hne : ¬(k + 1 = l * size ls) := by omega
      simp [hcarry, hne]

theorem nth_eq_to_index :
    ∀ {len : List Nat} {k : Nat}, k < size len →
      IndexIterator.nth len k = to_index len k := by
  intro len k
  induction k with
  | zero => intro _; rw [IndexIterator.nth, to_index_zero]
  | succ k ih =>
    intro hk
    have hk0 : k < size len := by omega
    rw [IndexIterator.nth, ih hk0, step_to_index len k hk0]
    simp only
    rw [Nat.mod_eq_of_lt hk]

/-- After the last in-bounds index, the iterator wraps back to all-zeros. -/
theorem nth_size_eq_zero {len : List Nat} (h : 0 < size len) :
    IndexIterator.nth len (size len) = List.replicate len.length 0 := by
  have h1 : size len - 1 < size len := by omega
  have h2 : IndexIterator.nth len (size len) =
      (IndexIterator.step len (IndexIterator.nth len (size len - 1))).1 := by
    conv_lhs => rw [show size len = (size len - 1) + 1 by omega]
    rfl
  rw [h2, nth_eq_to_index h1, step_to_index len _ h1,
    show size len - 1 + 1 = size len by omega, Nat.mod_self, to_index_zero]

theorem to_index_inj :
    ∀ {len : List Nat} {k1 k2 : Nat}, k1 < size len → k2 < size len →
      to_index len k1 = to_index len k2 → k1 = k2
  | [], k1, k2, h1, h2, _ => by
    simp [size] at h1 h2
    omega
  | l :: ls, k1, k2, h1, h2, he => by
    rw [size_cons] at h1 h2
    have hP : 0 < size ls := by
      rcases Nat.eq_zero_or_pos (size ls) with h | h
      · rw [h, Nat.mul_zero] at h1; omega
      · exact h
    rw [to_index_cons, to_index_cons] at he
    injection he with hdiv htail
    have hm : k1 % size ls = k2 % size ls :=
      to_index_inj (Nat.mod_lt _ hP) (Nat.mod_lt _ hP) htail
    have e1 : size ls * (k1 / size ls) + k1 % size ls = k1 :=
      Nat.div_add_mod k1 (size ls)
    have e2 : size ls * (k2 / size ls) + k2 % size ls = k2 :=
      Nat.div_add_mod k2 (size ls)
    rw [hdiv, hm] at e1
    omega

theorem range_mul_map {α : Type} (P : Nat) (g : Nat → α) :
    ∀ (l : Nat), (List.range (l * P)).map g =
      (List.range l).flatMap fun i => (List.range P).map fun j => g (i * P + j)
  | 0 => by simp
  | l + 1 => by
    have h1 : (l + 1) * P = l * P + P := Nat.succ_mul l P
    have h2 := List.range_add (l * P) P
    rw [h1, h2, List.map_append, range_mul_map P g l, List.range_succ,
      List.flatMap_append, List.map_map]
    simp [Function.comp_def]

theorem row_major_eq_map_to_index :
    ∀ (len : List Nat), row_major_indices len =
      (List.range (size len)).map (to_index len)
  | [] => by simp [row_major_indices, size, to_index]
  | l :: ls => by
    rw [row_major_indices, row_major_eq_map_to_index ls, size_cons,
      range_mul_map (size ls) (to_index (l :: ls)) l]
    rcases Nat.eq_zero_or_pos (size ls) with hP | hP
    · simp [hP]
    · rw [List.flatMap_def, List.flatMap_def]
      apply congrArg
      apply List.map_congr_left
      intro i _
      rw [List.map_map]
      apply List.map_congr_left
      intro j hj
      have hjP : j < size ls := List.mem_range.mp hj
      obtain ⟨hdiv, hmod⟩ := div_mod_decompose hP
        (show i * size ls + j = size ls * i + j by ring) hjP
      simp only [Function.comp_def, to_index_cons, hdiv, hmod]

/-- `indices` produces exactly the row-major enumeration. -/
theorem indices_list_eq_row_major (len : List Nat) :
    indices_list len = row_major_indices len := by
  rw [indices_list, row_major_eq_map_to_index]
  exact List.map_congr_left fun k hk => nth_eq_to_index (List.mem_range.mp hk)

theorem mem_row_major_iff :
    ∀ {len c : List Nat},
      c ∈ row_major_indices len ↔ List.Forall₂ (· < ·) c len
  | [], c => by
    simp [row_major_indices, List.forall₂_nil_right_iff]
  | l :: ls, c => by
    simp only [row_major_indices, List.mem_flatMap, List.mem_map,
      List.mem_range]
    constructor
    · rintro ⟨i, hi, c', hc', rfl⟩
      exact List.Forall₂.cons hi (mem_row_major_iff.mp hc')
    · intro hc
      rcases hc with _ | ⟨hi, hrest⟩
      exact ⟨_, hi, _, mem_row_major_iff.mpr hrest, rfl⟩

theorem indices_list_length (len : List Nat) :
    (indices_list len).length = size len := by
  simp [indices_list]

theorem indices_list_nodup (len : List Nat) : (indices_list len).Nodup := by
  rw [indices_list_eq_row_major, row_major_eq_map_to_index]
  exact List.Nodup.map_on
    (fun x hx y hy h => to_index_inj (List.mem_range.mp hx)
      (List.mem_range.mp hy) h)
    (List.nodup_range _)

/-! ### Full slice lemmas -/

theorem slice_axes_ok_val :
    ∀ {bs : List Bounds} {ls ss : List Nat} {dims : List (Nat × Nat × Nat)},
      slice_axes bs ls ss = Except.ok dims → dims = slice_spec_dims bs ls ss
  | [], [], [], dims, hax => by
    simp only [slice_axes] at hax
    cases hax
    rfl
  | b :: bs, l :: ls, s :: ss, dims, hax => by
    simp only [slice_axes, bind, Except.bind] at hax
    cases h1 : slice_dimension b l s with
    | error e => rw [h1] at hax; cases hax
    | ok d =>
      rw [h1] at hax
      cases h2 : slice_axes bs ls ss with
      | error e => rw [h2] at hax; cases hax
      | ok ds =>
        rw [h2] at hax
        simp only [pure, Except.pure, Except.ok.injEq] at hax
        subst hax
        obtain ⟨_, hd⟩ := slice_dimension_ok_iff.mp h1
        rw [hd, slice_axes_ok_val h2]
        rfl
  | [], l :: ls, ss, dims, hax => by
    simp only [slice_axes] at hax; cases ss <;> cases hax
  | b :: bs, [], ss, dims, hax => by
    simp only [slice_axes] at hax; cases ss <;> cases hax
  | [], [], s :: ss, dims, hax => by
    simp only [slice_axes] at hax; cases hax
  | b :: bs, l :: ls, [], dims, hax => by
    simp only [slice_axes] at hax; cases hax

theorem slice_axes_ok_iff :
    ∀ {bs : List Bounds} {ls ss : List Nat}, bs.length = ls.length →
      ls.length = ss.length →
      ((∃ dims, slice_axes bs ls ss = Except.ok dims) ↔
        List.Forall₂ axis_ok bs ls)
  | [], [], [], _, _ => by simp [slice_axes]
  | b :: bs, l :: ls, s :: ss, h1, h2 => by
    simp only [List.length_cons, Nat.add_right_cancel_iff] at h1 h2
    simp only [List.forall₂_cons]
    constructor
    · rintro ⟨dims, hax⟩
      simp only [slice_axes, bind, Except.bind] at hax
      cases hd : slice_dimension b l s with
      | error e => rw [hd] at hax; cases hax
      | ok d =>
        rw [hd] at hax
        cases hds : slice_axes bs ls ss with
        | error e => rw [hds] at hax; cases hax
        | ok ds =>
          exact ⟨(slice_dimension_ok_iff.mp hd).1,
            (slice_axes_ok_iff h1 h2).mp ⟨ds, hds⟩⟩
    · rintro ⟨hax0, haxs⟩
      obtain ⟨ds, hds⟩ := (slice_axes_ok_iff h1 h2).mpr haxs
      refine ⟨(resolved_start b, step_count (resolved_start b)
        (resolved_stop b l) b.step, s * b.step) :: ds, ?_⟩
      simp only [slice_axes, bind, Except.bind]
      rw [slice_dimension_ok_iff.mpr ⟨hax0, rfl⟩, hds]
      rfl
  | [], l :: ls, ss, h1, _ => by simp at h1
  | b :: bs, [], ss, h1, _ => by simp at h1
  | [], [], s :: ss, _, h2 => by simp at h2

/-- When the first `d` dimensions pass both checks and dimension `d` fails
one, `slice` panics with dimension `d`'s message: the range message if its
range check fails, otherwise the step-zero assert. -/
theorem slice_axes_error_first :
    ∀ {bs : List Bounds} {ls ss : List Nat} {d : Nat},
      bs.length = ls.length → ls.length = ss.length →
      (∀ j, j < d → axis_ok (bs.getD j Bounds.all) (ls.getD j 0)) →
      d < bs.length →
      ¬axis_ok (bs.getD d Bounds.all) (ls.getD d 0) →
      slice_axes bs ls ss = Except.error
        (if range_ok (bs.getD d Bounds.all) (ls.getD d 0)
          then "assertion failed: step != 0"
          else range_message (bs.getD d Bounds.all) (ls.getD d 0))
  | [], _, _, d, h1, _, _, hd, _ => by simp at hd
  | b :: bs, [], ss, d, h1, _, _, _, _ => by simp at h1
  | b :: bs, l :: ls, [], d, h1, h2, _, _, _ => by simp_all
  | b :: bs, l :: ls, s :: ss, 0, h1, h2, _, _, hbad => by
    simp only [List.getD_cons_zero] at hbad ⊢
    simp only [slice_axes, bind, Except.bind]
    by_cases hrange : range_ok b l
    · have hstep : b.step = 0 := by
        by_contra hs
        exact hbad ⟨hrange, hs⟩
      rw [slice_dimension_error_step hrange hstep, if_pos hrange]
    · rw [slice_dimension_error_range hrange, if_neg hrange]
  | b :: bs, l :: ls, s :: ss, d + 1, h1, h2, hpre, hlt, hbad => by
    simp only [List.length_cons, Nat.add_right_cancel_iff] at h1 h2
    simp only [List.getD_cons_succ] at hbad ⊢
    have h0 : axis_ok b l := by
      have := hpre 0 (Nat.succ_pos d)
      simpa using this
    simp only [slice_axes, bind, Except.bind]
    rw [slice_dimension_ok_iff.mpr ⟨h0, rfl⟩]
    rw [slice_axes_error_first h1 h2
      (fun j hj => by simpa using hpre (j + 1) (by omega))
      (by simpa using hlt) hbad]

/-- A `slice` with `Bounds::all()` on every dimension changes nothing:
each range resolves to `0..len` with step 1. -/
theorem slice_dimension_all (l s : Nat) :
    slice_dimension Bounds.all l s = Except.ok (0, l, s) := by
  have hcount : step_count 0 l 1 = l := by
    unfold step_count
    split <;> omega
  have h1 : resolved_start Bounds.all = 0 := rfl
  have h2 : resolved_stop Bounds.all l = l := rfl
  have h3 : Bounds.all.step = 1 := rfl
  unfold slice_dimension
  rw [h1, h2, h3, if_pos ⟨Nat.zero_le l, Nat.le_refl l⟩,
    if_neg (by omega : ¬(1 : Nat) = 0), hcount, Nat.mul_one]

theorem slice_axes_all :
    ∀ (ls ss : List Nat), ls.length = ss.length →
      slice_axes (List.replicate ls.length Bounds.all) ls ss =
        Except.ok (List.zipWith (fun l s => (l, s)) ls ss |>.map
          fun p => (0, p.1, p.2))
  | [], [], _ => rfl
  | l :: ls, s :: ss, h => by
    simp only [List.length_cons, Nat.add_right_cancel_iff] at h
    simp only [List.length_cons, List.replicate_succ, slice_axes, bind,
      Except.bind]
    rw [slice_dimension_all, slice_axes_all ls ss h]
    rfl
  | [], s :: ss, h => by simp at h
  | l :: ls, [], h => by simp at h

theorem replicate_zero_offset :
    ∀ (n : Nat) (ss : List Nat),
      location_offset (List.replicate n 0) ss = 0
  | 0, _ => rfl
  | n + 1, [] => rfl
  | n + 1, s :: ss => by
    simp only [List.replicate_succ, location_offset_cons, Nat.zero_mul,
      Nat.zero_add]
    exact replicate_zero_offset n ss

theorem slice_all_components :
    ∀ (ls ss : List Nat), ls.length = ss.length →
      ((List.zipWith (fun l s => (l, s)) ls ss |>.map
          fun p => ((0 : Nat), p.1, p.2)).map (fun d => d.1) =
        List.replicate ls.length 0) ∧
      ((List.zipWith (fun l s => (l, s)) ls ss |>.map
          fun p => ((0 : Nat), p.1, p.2)).map (fun d => d.2.1) = ls) ∧
      ((List.zipWith (fun l s => (l, s)) ls ss |>.map
          fun p => ((0 : Nat), p.1, p.2)).map (fun d => d.2.2) = ss)
  | [], [], _ => ⟨rfl, rfl, rfl⟩
  | l :: ls, s :: ss, h => by
    simp only [List.length_cons, Nat.add_right_cancel_iff] at h
    obtain ⟨h1, h2, h3⟩ := slice_all_components ls ss h
    simp only [List.zipWith_cons_cons, List.map_cons, List.length_cons,
      List.replicate_succ, h1, h2, h3]
    exact ⟨trivial, trivial, trivial⟩
  | [], s :: ss, h => by simp at h
  | l :: ls, [], h => by simp at h

/-- Slicing every dimension with `Bounds::all()` returns the identical view:
same base pointer, lengths, and strides. -/
theorem slice_all_identity {v : RView} (h : v.len.length = v.stride.length) :
    NDSlice.slice v (List.replicate v.len.length Bounds.all) =
      Except.ok v := by
  obtain ⟨off, len, stride⟩ := v
  simp only at h
  unfold NDSlice.slice
  rw [slice_axes_all len stride h]
  simp only [bind, Except.bind, pure, Except.pure]
  obtain ⟨h1, h2, h3⟩ := slice_all_components len stride h
  rw [h1, h2, h3, replicate_zero_offset, Nat.add_zero]

/-! ### Element access lemmas -/

theorem getElem?_isSome_iff {α : Type} (l : List α) (i : Nat) :
    l[i]?.isSome = true ↔ i < l.length := by
  rw [Option.isSome_iff_exists]
  simp only [List.getElem?_eq_some_iff]
  exact ⟨fun ⟨a, h, _⟩ => h, fun h => ⟨l[i], h, rfl⟩⟩

theorem indices_list_getElem {len : List Nat} {k : Nat} (hk : k < size len) :
    (indices_list len)[k]? = some (to_index len k) := by
  rw [indices_list, List.getElem?_map, List.getElem?_range hk]
  simp [nth_eq_to_index hk]

/-- Decoding the offset of an in-bounds index against the default stride
recovers the index: the row-major layout is a bijection. -/
theorem to_index_offset {c len : List Nat}
    (hc : List.Forall₂ (· < ·) c len) :
    to_index len (location_offset c (default_stride len)) = c := by
  induction hc with
  | nil => rfl
  | @cons i l is ls hil hrest ih =>
    have hoff : location_offset is (default_stride ls) < size ls :=
      offset_default_stride_lt hrest
    have hP : 0 < size ls := by omega
    rw [default_stride, location_offset_cons, to_index_cons]
    obtain ⟨hdiv, hmod⟩ := div_mod_decompose hP
      (show i * size ls + location_offset is (default_stride ls) =
        size ls * i + location_offset is (default_stride ls) by ring) hoff
    rw [hdiv, hmod, ih]

/-- Reading a `new_with` array through its own view at an in-bounds index
gives the initializer's value at that index. -/
theorem new_with_read {α : Type} (len : List Nat) (init : List Nat → α)
    {c : List Nat} (hc : List.Forall₂ (· < ·) c len) :
    read_element (NDBox.new_with len init).data
      (NDBox.new_with len init).as_slice c = some (init c) := by
  unfold read_element NDBox.new_with NDBox.as_slice
  simp only [Nat.zero_add]
  have hoff : location_offset c (default_stride len) < size len :=
    offset_default_stride_lt hc
  rw [List.getElem?_map, indices_list_getElem hoff]
  simp [to_index_offset hc]

theorem new_with_len {α : Type} (len : List Nat) (init : List Nat → α) :
    (NDBox.new_with len init).len = len := rfl

theorem new_with_data_length {α : Type} (len : List Nat)
    (init : List Nat → α) :
    (NDBox.new_with len init).data.length = size len := by
  simp [NDBox.new_with, indices_list]

/-! ### Extract lemmas -/

theorem extract_ok_iff {v : RView} {D i : Nat} :
    (∃ v2, NDSlice.extract v D i = Except.ok v2) ↔ i < v.len.getD D 0 := by
  unfold NDSlice.extract
  split
  · rename_i h; exact ⟨fun _ => h, fun _ => ⟨_, rfl⟩⟩
  · rename_i h
    constructor
    · rintro ⟨v2, hv2⟩
      cases hv2
    · intro hi
      exact absurd hi h

theorem extract_error {v : RView} {D i : Nat} (h : ¬i < v.len.getD D 0) :
    NDSlice.extract v D i = Except.error ("index " ++ toString i ++
      " out of bounds for dimension of len " ++ toString (v.len.getD D 0)) := by
  unfold NDSlice.extract
  rw [if_neg h]

theorem extract_ok_val {v v2 : RView} {D i : Nat}
    (h : NDSlice.extract v D i = Except.ok v2) :
    i < v.len.getD D 0 ∧ v2 = ⟨v.off + i * v.stride.getD D 0,
      v.len.eraseIdx D, v.stride.eraseIdx D⟩ := by
  unfold NDSlice.extract at h
  split at h
  · rename_i hi
    cases h
    exact ⟨hi, rfl⟩
  · cases h

/-- Reading the extracted view at an index reads the original view at the
index with the fixed coordinate re-inserted at the extracted dimension. -/
theorem extract_read {α : Type} {v v2 : RView} {D i : Nat}
    (hD : D < v.len.length) (hwf : v.len.length = v.stride.length)
    (hok : NDSlice.extract v D i = Except.ok v2) (data : List α)
    (c : List Nat) (hc : c.length = v2.len.length) :
    read_element data v2 c = read_element data v (c.insertIdx D i) := by
  obtain ⟨hi, hv2⟩ := extract_ok_val hok
  subst hv2
  unfold read_element
  simp only [List.length_eraseIdx_of_lt hD] at hc
  have hDc : D ≤ c.length := by omega
  have hDs : D < v.stride.length := hwf ▸ hD
  rw [offset_insertIdx hDc hDs]
  simp only
  rw [Nat.add_assoc]

/-! ### Transpose lemmas -/

theorem transpose_transpose (v : RView) :
    NDSlice.transpose (NDSlice.transpose v) = v := by
  obtain ⟨off, len, stride⟩ := v
  simp [NDSlice.transpose]

theorem transpose_read {α : Type} (v : RView) (data : List α)
    {c : List Nat} (hc : c.length = v.stride.length) :
    read_element data (NDSlice.transpose v) c.reverse =
      read_element data v c := by
  unfold read_element NDSlice.transpose
  simp only
  rw [location_offset_reverse (by simpa using hc)]

/-! ### Structural equality lemmas -/

theorem option_some_getD {α : Type} {o : Option α} {d : α}
    (h : o.isSome = true) : some (o.getD d) = o := by
  cases o
  · cases h
  · rfl

theorem zip_all_eq_iff {α : Type} [DecidableEq α] :
    ∀ {a b : List α}, a.length = b.length →
      ((((a.zip b).all fun p => decide (p.1 = p.2)) = true) ↔ a = b)
  | [], [], _ => by simp
  | x :: xs, y :: ys, h => by
    simp only [List.length_cons, Nat.add_right_cancel_iff] at h
    simp [List.zip_cons_cons, List.all_cons, zip_all_eq_iff h]
  | [], y :: ys, h => by simp at h
  | x :: xs, [], h => by simp at h

theorem iter_length {α : Type} (data : List α) (v : RView) :
    (NDSlice.iter data v).length = size v.len := by
  simp [NDSlice.iter, NDSlice.indices, indices_list]

theorem ndslice_eq_true_iff {α : Type} [DecidableEq α]
    (d1 d2 : List α) (v1 v2 : RView) :
    ndslice_eq d1 v1 d2 v2 = true ↔
      v1.len = v2.len ∧ NDSlice.iter d1 v1 = NDSlice.iter d2 v2 := by
  unfold ndslice_eq NDIntoIterator.zip
  by_cases hlen : v1.len = v2.len
  · rw [if_pos hlen]
    have hl : (NDSlice.iter d1 v1).length = (NDSlice.iter d2 v2).length := by
      rw [iter_length, iter_length, hlen]
    simp [hlen, zip_all_eq_iff hl]
  · rw [if_neg hlen]
    simp [hlen]

theorem ndslice_eq_mismatch {α : Type} [DecidableEq α]
    (d1 d2 : List α) (v1 v2 : RView) (h : v1.len ≠ v2.len) :
    ndslice_eq d1 v1 d2 v2 = false := by
  unfold ndslice_eq NDIntoIterator.zip
  rw [if_neg h]
  simp [h]

theorem ndslice_eq_refl {α : Type} [DecidableEq α]
    (d : List α) (v : RView) : ndslice_eq d v d v = true :=
  (ndslice_eq_true_iff d d v v).mpr ⟨rfl, rfl⟩

theorem ndslice_eq_symm {α : Type} [DecidableEq α]
    (d1 d2 : List α) (v1 v2 : RView) :
    ndslice_eq d1 v1 d2 v2 = ndslice_eq d2 v2 d1 v1 := by
  cases hb : ndslice_eq d1 v1 d2 v2 with
  | true =>
    obtain ⟨hl, hi⟩ := (ndslice_eq_true_iff d1 d2 v1 v2).mp hb
    exact ((ndslice_eq_true_iff d2 d1 v2 v1).mpr ⟨hl.symm, hi.symm⟩).symm
  | false =>
    cases hb2 : ndslice_eq d2 v2 d1 v1 with
    | false => rfl
    | true =>
      obtain ⟨hl, hi⟩ := (ndslice_eq_true_iff d2 d1 v2 v1).mp hb2
      rw [(ndslice_eq_true_iff d1 d2 v1 v2).mpr ⟨hl.symm, hi.symm⟩] at hb
      cases hb

/-! ### Matrix product lemmas -/

theorem sum_mul_ite {α : Type} [NonAssocSemiring α] (g : Nat → α) :
    ∀ (k : Nat) {j : Nat}, j < k →
      ((List.range k).map fun m => g m * (if m = j then 1 else 0)).sum = g j
  | 0, j, hj => absurd hj (Nat.not_lt_zero j)
  | k + 1, j, hj => by
    rw [List.range_succ, List.map_append, List.sum_append]
    by_cases hjk : j = k
    · subst hjk
      have hz : ((List.range j).map
          fun m => g m * (if m = j then 1 else 0)).sum = 0 :=
        List.sum_eq_zero (by
          intro x hx
          simp only [List.mem_map, List.mem_range] at hx
          obtain ⟨m, hm, rfl⟩ := hx
          rw [if_neg (by omega), mul_zero])
      rw [hz]
      simp
    · have hjlt : j < k := by omega
      rw [sum_mul_ite g k hjlt]
      simp [Ne.symm hjk]

theorem sum_ite_mul {α : Type} [NonAssocSemiring α] (g : Nat → α) :
    ∀ (k : Nat) {j : Nat}, j < k →
      ((List.range k).map fun m => (if j = m then 1 else 0) * g m).sum = g j
  | 0, j, hj => absurd hj (Nat.not_lt_zero j)
  | k + 1, j, hj => by
    rw [List.range_succ, List.map_append, List.sum_append]
    by_cases hjk : j = k
    · subst hjk
      have hz : ((List.range j).map
          fun m => (if j = m then 1 else 0) * g m).sum = 0 :=
        List.sum_eq_zero (by
          intro x hx
          simp only [List.mem_map, List.mem_range] at hx
          obtain ⟨m, hm, rfl⟩ := hx
          rw [if_neg (by omega), zero_mul])
      rw [hz]
      simp
    · have hjlt : j < k := by omega
      rw [sum_ite_mul g k hjlt]
      simp [hjk]

theorem matrix_product_error_eq {α : Type} [NonAssocSemiring α]
    {d1 d2 : List α} {m1 m2 : RView} {r k k2 c : Nat}
    (h1 : m1.len = [r, k]) (h2 : m2.len = [k2, c]) (hk : k ≠ k2) :
    matrix_product d1 m1 d2 m2 = Except.error
      ("Cannot multiply matrices of " ++ fmtLen [r, k] ++ " and " ++
        fmtLen [k2, c]) := by
  unfold matrix_product
  rw [h1, h2]
  simp [hk]

theorem matrix_product_ok_eq {α : Type} [NonAssocSemiring α]
    {d1 d2 : List α} {m1 m2 : RView} {r k c : Nat}
    (h1 : m1.len = [r, k]) (h2 : m2.len = [k, c]) :
    matrix_product d1 m1 d2 m2 = Except.ok (NDBox.new_with [r, c] fun cd =>
      ((List.range k).map fun m =>
        (read_element d1 m1 [cd.getD 0 0, m]).getD 0 *
        (read_element d2 m2 [m, cd.getD 1 0]).getD 0).sum) := by
  unfold matrix_product
  rw [h1, h2]
  simp

/-! ### Slice at the view level -/

theorem slice_error_of_axes {v : RView} {bounds : List Bounds} {e : String}
    (h : slice_axes bounds v.len v.stride = Except.error e) :
    NDSlice.slice v bounds = Except.error e := by
  unfold NDSlice.slice
  simp [bind, Except.bind, h]

theorem slice_ok_iff_axes {v : RView} {bounds : List Bounds} :
    (∃ v2, NDSlice.slice v bounds = Except.ok v2) ↔
      (∃ dims, slice_axes bounds v.len v.stride = Except.ok dims) := by
  unfold NDSlice.slice
  cases h : slice_axes bounds v.len v.stride with
  | error e =>
    simp [bind, Except.bind, h]
  | ok dims =>
    simp [bind, Except.bind, h, pure, Except.pure]

theorem slice_ok_components {v v2 : RView} {bounds : List Bounds}
    (h : NDSlice.slice v bounds = Except.ok v2) :
    ∃ dims, slice_axes bounds v.len v.stride = Except.ok dims ∧
      v2 = ⟨v.off + location_offset (dims.map fun d => d.1) v.stride,
        dims.map fun d => d.2.1, dims.map fun d => d.2.2⟩ := by
  unfold NDSlice.slice at h
  cases hax : slice_axes bounds v.len v.stride with
  | error e =>
    rw [hax] at h
    simp [bind, Except.bind] at h
  | ok dims =>
    rw [hax] at h
    simp only [bind, Except.bind, pure, Except.pure, Except.ok.injEq] at h
    exact ⟨dims, rfl, h.symm⟩

theorem spec_dims_components :
    ∀ (bs : List Bounds) (ls ss : List Nat), bs.length = ls.length →
      ls.length = ss.length →
      ((slice_spec_dims bs ls ss).map (fun d => d.1) =
        bs.map resolved_start) ∧
      ((slice_spec_dims bs ls ss).map (fun d => d.2.1) =
        List.zipWith (fun b l => step_count (resolved_start b)
          (resolved_stop b l) b.step) bs ls) ∧
      ((slice_spec_dims bs ls ss).map (fun d => d.2.2) =
        List.zipWith (fun b s => s * b.step) bs ss)
  | [], [], [], _, _ => ⟨rfl, rfl, rfl⟩
  | b :: bs, l :: ls, s :: ss, h1, h2 => by
    simp only [List.length_cons, Nat.add_right_cancel_iff] at h1 h2
    obtain ⟨c1, c2, c3⟩ := spec_dims_components bs ls ss h1 h2
    simp only [slice_spec_dims, List.zipWith3, List.map_cons,
      List.zipWith_cons_cons]
    exact ⟨by rw [← c1]; rfl, by rw [← c2]; rfl, by rw [← c3]; rfl⟩
  | [], l :: ls, ss, h1, _ => by simp at h1
  | b :: bs, [], ss, h1, _ => by simp at h1
  | [], [], s :: ss, _, h2 => by simp at h2

/-! ### Identity matrix lemmas -/

theorem identity_matrix_read {α : Type} [NonAssocSemiring α] {k m j : Nat}
    (hm : m < k) (hj : j < k) :
    read_element (identity_matrix α k).data (identity_matrix α k).as_slice
      [m, j] = some (if m = j then 1 else 0) := by
  have h := new_with_read [k, k]
    (fun cd => if cd.getD 0 0 = cd.getD 1 0 then (1 : α) else 0)
    (List.Forall₂.cons hm (List.Forall₂.cons hj List.Forall₂.nil))
  simpa [identity_matrix, List.getD_cons_zero, List.getD_cons_succ] using h

theorem box_read_some {α : Type} {B : NDBox α} {c : List Nat}
    (hc : List.Forall₂ (· < ·) c B.len)
    (hdata : B.data.length = size B.len) :
    (read_element B.data B.as_slice c).isSome = true := by
  rw [read_element, getElem?_isSome_iff]
  simp only [NDBox.as_slice, Nat.zero_add]
  rw [hdata]
  exact offset_default_stride_lt hc

theorem iter_eq_of_read_eq {α : Type} (B C : NDBox α) (hlen : B.len = C.len)
    (h : ∀ cd, List.Forall₂ (· < ·) cd B.len →
      read_element B.data B.as_slice cd =
        read_element C.data C.as_slice cd) :
    NDSlice.iter B.data B.as_slice = NDSlice.iter C.data C.as_slice := by
  unfold NDSlice.iter NDSlice.indices
  have hl : B.as_slice.len = B.len := rfl
  have hl2 : C.as_slice.len = C.len := rfl
  rw [hl, hl2, ← hlen]
  apply List.map_congr_left
  intro cd hcd
  apply h
  rw [indices_list_eq_row_major] at hcd
  exact mem_row_major_iff.mp hcd

theorem ndbox_eq_of_read_eq {α : Type} [DecidableEq α] (B C : NDBox α)
    (hlen : B.len = C.len)
    (h : ∀ cd, List.Forall₂ (· < ·) cd B.len →
      read_element B.data B.as_slice cd =
        read_element C.data C.as_slice cd) :
    ndslice_eq B.data B.as_slice C.data C.as_slice = true :=
  (ndslice_eq_true_iff _ _ _ _).mpr
    ⟨by simp [NDBox.as_slice, hlen], iter_eq_of_read_eq B C hlen h⟩

/-- Multiplying by the identity on the right reproduces the matrix. -/
theorem matrix_product_identity_right {α : Type} [NonAssocSemiring α]
    [DecidableEq α] (Mdata : List α) (r k : Nat)
    (hdata : Mdata.length = size [r, k]) :
    ∃ bx, matrix_product Mdata (NDBox.mk [r, k] Mdata).as_slice
        (identity_matrix α k).data (identity_matrix α k).as_slice =
        Except.ok bx ∧
      ndslice_eq bx.data bx.as_slice Mdata
        (NDBox.mk [r, k] Mdata).as_slice = true := by
  have hM : (NDBox.mk [r, k] Mdata).as_slice.len = [r, k] := rfl
  have hI : (identity_matrix α k).as_slice.len = [k, k] := rfl
  refine ⟨_, matrix_product_ok_eq hM hI,
    ndbox_eq_of_read_eq (NDBox.new_with [r, k] _) (NDBox.mk [r, k] Mdata)
      rfl ?_⟩
  intro cd hcd
  have hcd2 := hcd
  rcases hcd with _ | ⟨hi, hrest⟩
  rcases hrest with _ | ⟨hj, hnil⟩
  cases hnil
  rename_i i j
  rw [new_with_read [r, k] _ hcd2]
  simp only [List.getD_cons_zero, List.getD_cons_succ]
  have hblock : ((List.range k).map fun m =>
      (read_element Mdata (NDBox.mk [r, k] Mdata).as_slice [i, m]).getD 0 *
      (read_element (identity_matrix α k).data
        (identity_matrix α k).as_slice [m, j]).getD 0) =
      ((List.range k).map fun m =>
      (read_element Mdata (NDBox.mk [r, k] Mdata).as_slice [i, m]).getD 0 *
      (if m = j then 1 else 0)) := by
    apply List.map_congr_left
    intro m hm
    rw [identity_matrix_read (List.mem_range.mp hm) hj]
    rfl
  rw [hblock, sum_mul_ite (fun m => (read_element Mdata
    (NDBox.mk [r, k] Mdata).as_slice [i, m]).getD 0) k hj]
  exact option_some_getD (box_read_some hcd2 hdata)

/-- Multiplying by the identity on the left reproduces the matrix. -/
theorem matrix_product_identity_left {α : Type} [NonAssocSemiring α]
    [DecidableEq α] (Mdata : List α) (r k : Nat)
    (hdata : Mdata.length = size [r, k]) :
    ∃ bx, matrix_product (identity_matrix α r).data
        (identity_matrix α r).as_slice Mdata
        (NDBox.mk [r, k] Mdata).as_slice = Except.ok bx ∧
      ndslice_eq bx.data bx.as_slice Mdata
        (NDBox.mk [r, k] Mdata).as_slice = true := by
  have hM : (NDBox.mk [r, k] Mdata).as_slice.len = [r, k] := rfl
  have hI : (identity_matrix α r).as_slice.len = [r, r] := rfl
  refine ⟨_, matrix_product_ok_eq hI hM,
    ndbox_eq_of_read_eq (NDBox.new_with [r, k] _) (NDBox.mk [r, k] Mdata)
      rfl ?_⟩
  intro cd hcd
  have hcd2 := hcd
  rcases hcd with _ | ⟨hi, hrest⟩
  rcases hrest with _ | ⟨hj, hnil⟩
  cases hnil
  rename_i i j
  rw [new_with_read [r, k] _ hcd2]
  simp only [List.getD_cons_zero, List.getD_cons_succ]
  have hblock : ((List.range r).map fun m =>
      (read_element (identity_matrix α r).data
        (identity_matrix α r).as_slice [i, m]).getD 0 *
      (read_element Mdata (NDBox.mk [r, k] Mdata).as_slice [m, j]).getD 0) =
      ((List.range r).map fun m =>
      (if i = m then 1 else 0) *
      (read_element Mdata (NDBox.mk [r, k] Mdata).as_slice [m, j]).getD 0) := by
    apply List.map_congr_left
    intro m hm
    rw [identity_matrix_read hi (List.mem_range.mp hm)]
    rfl
  rw [hblock, sum_ite_mul (fun m => (read_element Mdata
    (NDBox.mk [r, k] Mdata).as_slice [m, j]).getD 0) r hi]
  exact option_some_getD (box_read_some hcd2 hdata)

/-! ## Claim theorems -/

/-- C1: for every view derived from an owned array of length vector `len0`
by any sequence of `as_slice`/`as_mut`, `slice`, `extract`, `add_dimension`
and `transpose`, and every index that is in bounds for that view, the base
offset plus the sum over dimensions of index·stride lies strictly within the
`size len0` elements of the original allocation — established by the
constructors themselves, with no runtime clamping. -/
theorem C1_derived_offsets_in_allocation {len0 : List Nat} {v : RView}
    (hv : Derived len0 v) {c : List Nat} (hlen : c.length = v.len.length)
    (hc : check_index c v.len = true) :
    v.off + location_offset c v.stride < size len0 :=
  (derived_wf_and_in_alloc hv).2 c ((check_index_iff hlen).mp hc)

theorem C1_witness :
    (⟨0, [2, 2], default_stride [2, 2]⟩ : RView).off +
      location_offset [1, 1]
        (⟨0, [2, 2], default_stride [2, 2]⟩ : RView).stride <
      size [2, 2] :=
  C1_derived_offsets_in_allocation Derived.base rfl (by decide)

/-- C3: the index enumerator is an unbounded sequence (`IndexIterator.nth`
is total) starting at all-zeros, whose first `size len` items are exactly
the in-bounds indices in row-major order — each exactly once — and which
returns to all-zeros after wrapping past the first dimension; for shape
`[2, 2]` the finite walk is `[0,0],[0,1],[1,0],[1,1]`. -/
theorem C3_indices_row_major :
    (∀ len : List Nat,
      indices_list len = row_major_indices len ∧
      (indices_list len).length = size len ∧
      (indices_list len).Nodup ∧
      (∀ c, c ∈ indices_list len ↔ List.Forall₂ (· < ·) c len) ∧
      IndexIterator.nth len 0 = List.replicate len.length 0 ∧
      (0 < size len →
        IndexIterator.nth len (size len) = List.replicate len.length 0)) ∧
    indices_list [2, 2] = [[0, 0], [0, 1], [1, 0], [1, 1]] := by
  refine ⟨fun len => ⟨indices_list_eq_row_major len, indices_list_length len,
    indices_list_nodup len, ?_, rfl, fun h => nth_size_eq_zero h⟩, by decide⟩
  intro c
  rw [indices_list_eq_row_major]
  exact mem_row_major_iff

theorem C3_witness :
    0 < size [2, 2] ∧
      IndexIterator.nth [2, 2] (size [2, 2]) = List.replicate 2 0 :=
  ⟨by decide, (C3_indices_row_major.1 [2, 2]).2.2.2.2.2 (by decide)⟩

/-- C4: `extract` fails exactly when the fixed coordinate reaches the
dimension length, with the `index {i} out of bounds for dimension of len
{len}` message; on success the length and stride vectors lose position `D`
and every element of the result is the original element at the index with
`i` re-inserted at `D`.  Concretely on `A`: `extract(0,1).extract(0,2)`
reads `-7`, and extracting index 4 from a length-4 dimension fails. -/
theorem C4_extract_spec :
    (∀ (v : RView) (D i : Nat), D < v.len.length →
      v.len.length = v.stride.length →
      (((∃ v2, NDSlice.extract v D i = Except.ok v2) ↔
        i < v.len.getD D 0) ∧
      (¬i < v.len.getD D 0 → NDSlice.extract v D i = Except.error
        ("index " ++ toString i ++ " out of bounds for dimension of len " ++
          toString (v.len.getD D 0))) ∧
      (∀ v2, NDSlice.extract v D i = Except.ok v2 →
        v2.len = v.len.eraseIdx D ∧ v2.stride = v.stride.eraseIdx D ∧
        ∀ (α : Type) (data : List α) (c : List Nat),
          c.length = v2.len.length →
          read_element data v2 c = read_element data v (c.insertIdx D i)))) ∧
    ((NDSlice.extract A_view 0 1).bind fun w => NDSlice.extract w 0 2) =
      Except.ok ⟨6, [], []⟩ ∧
    read_element A_data (⟨6, [], []⟩ : RView) [] = some (-7) ∧
    NDSlice.extract A_view 0 4 =
      Except.error "index 4 out of bounds for dimension of len 4" := by
  refine ⟨?_, by decide, by decide, by decide⟩
  intro v D i hD hwf
  refine ⟨extract_ok_iff, fun h => extract_error h, fun v2 hok => ?_⟩
  obtain ⟨hi, hv2⟩ := extract_ok_val hok
  refine ⟨by rw [hv2], by rw [hv2], ?_⟩
  intro α data c hc
  exact extract_read hD hwf hok data c hc

theorem C4_witness :
    ∃ v2, NDSlice.extract A_view 0 1 = Except.ok v2 :=
  ((C4_extract_spec.1 A_view 0 1 (by decide) (by decide)).1).mpr (by decide)

/-- C5 counterexample: on length vectors `[3, 3]` and `[2, 3]` the zip
combinator's message says "Cannot operate on NDSlices with ...", which is
not the "Cannot operate on arrays with ..." wording the claim states. -/
theorem C5_counterexample :
    NDIntoIterator.zip [3, 3] (List.replicate 9 (0 : Int)) [2, 3]
        (List.replicate 6 (0 : Int)) =
      Except.error
        "Cannot operate on NDSlices with Len([3, 3]) and Len([2, 3])" ∧
    "Cannot operate on NDSlices with Len([3, 3]) and Len([2, 3])" ≠
      "Cannot operate on arrays with Len([3, 3]) and Len([2, 3])" := by
  exact ⟨by decide, by decide⟩

/-- C5 (amended): `zip` — and `zip_map`, on which every binary elementwise
and compound-assignment operator iterates — fails on unequal length vectors
with `"Cannot operate on NDSlices with {len1} and {len2}"` naming both
length vectors, and pairs items positionally when they are equal. -/
theorem C5_zip_spec {α β γ : Type} (len1 len2 : List Nat) (items1 : List α)
    (items2 : List β) (f : α → β → γ) :
    (len1 = len2 →
      NDIntoIterator.zip len1 items1 len2 items2 =
        Except.ok (items1.zip items2)) ∧
    (len1 ≠ len2 →
      NDIntoIterator.zip len1 items1 len2 items2 = Except.error
        ("Cannot operate on NDSlices with " ++ fmtLen len1 ++ " and " ++
          fmtLen len2) ∧
      NDIntoIterator.zip_map len1 items1 len2 items2 f = Except.error
        ("Cannot operate on NDSlices with " ++ fmtLen len1 ++ " and " ++
          fmtLen len2)) := by
  constructor
  · intro h
    unfold NDIntoIterator.zip
    rw [if_pos h]
  · intro h
    have hz : NDIntoIterator.zip len1 items1 len2 items2 = Except.error
        ("Cannot operate on NDSlices with " ++ fmtLen len1 ++ " and " ++
          fmtLen len2) := by
      unfold NDIntoIterator.zip
      rw [if_neg h]
    refine ⟨hz, ?_⟩
    unfold NDIntoIterator.zip_map
    rw [hz]
    rfl

theorem C5_witness :
    NDIntoIterator.zip [3, 3] (List.replicate 9 (0 : Int)) [3, 3]
        (List.replicate 9 (0 : Int)) =
      Except.ok ((List.replicate 9 (0 : Int)).zip
        (List.replicate 9 (0 : Int))) ∧
    NDIntoIterator.zip [3, 3] (List.replicate 9 (0 : Int)) [2, 3]
        (List.replicate 6 (0 : Int)) =
      Except.error ("Cannot operate on NDSlices with " ++ fmtLen [3, 3] ++
        " and " ++ fmtLen [2, 3]) :=
  ⟨(C5_zip_spec [3, 3] [3, 3] _ _ (fun (a : Int) (_ : Int) => a)).1 rfl,
    ((C5_zip_spec [3, 3] [2, 3] _ _ (fun (a : Int) (_ : Int) => a)).2
      (by decide)).1⟩

/-- C7: `transpose` reverses the length and stride vectors as a whole, is
its own inverse, and maps the element at index `[a, ..., z]` of the
original to index `[z, ..., a]` of the result; transposing
`[[1,2,3],[4,5,6]]` gives `[[1,4],[2,5],[3,6]]`. -/
theorem C7_transpose_spec :
    (∀ v : RView, NDSlice.transpose v =
      ⟨v.off, v.len.reverse, v.stride.reverse⟩) ∧
    (∀ v : RView, NDSlice.transpose (NDSlice.transpose v) = v) ∧
    (∀ (v : RView) (α : Type) (data : List α) (c : List Nat),
      c.length = v.stride.length →
      read_element data (NDSlice.transpose v) c.reverse =
        read_element data v c) ∧
    ndslice_eq ([1, 2, 3, 4, 5, 6] : List Int)
        (NDSlice.transpose (NDBox.mk [2, 3]
          ([1, 2, 3, 4, 5, 6] : List Int)).as_slice)
        [1, 4, 2, 5, 3, 6]
        (NDBox.mk [3, 2] ([1, 4, 2, 5, 3, 6] : List Int)).as_slice = true := by
  refine ⟨fun v => rfl, transpose_transpose, ?_, by decide⟩
  intro v α data c hc
  exact transpose_read v data hc

theorem C7_witness :
    read_element ([10, 20, 30, 40, 50, 60] : List Int)
        (NDSlice.transpose ⟨0, [2, 3], [3, 1]⟩) ([0, 1] : List Nat).reverse =
      read_element ([10, 20, 30, 40, 50, 60] : List Int)
        ⟨0, [2, 3], [3, 1]⟩ [0, 1] :=
  C7_transpose_spec.2.2.1 ⟨0, [2, 3], [3, 1]⟩ Int [10, 20, 30, 40, 50, 60]
    [0, 1] rfl

/-- C9: structural equality holds iff the length vectors are identical and
the element sequences coincide; a length mismatch yields `false` for every
choice of backing data (no element is inspected); equality is reflexive and
symmetric; and same flattened contents under different shapes compare
unequal. -/
theorem C9_equality_spec :
    (∀ (α : Type) [DecidableEq α] (d1 d2 : List α) (v1 v2 : RView),
      ndslice_eq d1 v1 d2 v2 = true ↔
        v1.len = v2.len ∧ NDSlice.iter d1 v1 = NDSlice.iter d2 v2) ∧
    (∀ (α : Type) [DecidableEq α] (d1 d2 : List α) (v1 v2 : RView),
      v1.len ≠ v2.len → ndslice_eq d1 v1 d2 v2 = false) ∧
    (∀ (α : Type) [DecidableEq α] (d : List α) (v : RView),
      ndslice_eq d v d v = true) ∧
    (∀ (α : Type) [DecidableEq α] (d1 d2 : List α) (v1 v2 : RView),
      ndslice_eq d1 v1 d2 v2 = ndslice_eq d2 v2 d1 v1) ∧
    ndslice_eq ([1, 2, 3, 4, 5, 6] : List Int)
      (NDBox.mk [2, 3] ([1, 2, 3, 4, 5, 6] : List Int)).as_slice
      [1, 2, 3, 4, 5, 6]
      (NDBox.mk [3, 2] ([1, 2, 3, 4, 5, 6] : List Int)).as_slice = false :=
  ⟨fun α _ => ndslice_eq_true_iff, fun α _ => ndslice_eq_mismatch,
    fun α _ => ndslice_eq_refl, fun α _ => ndslice_eq_symm, by decide⟩

theorem C9_witness :
    ndslice_eq ([7] : List Int) ⟨0, [1], [1]⟩ [7] ⟨0, [2], [1]⟩ = false :=
  C9_equality_spec.2.1 Int [7] [7] ⟨0, [1], [1]⟩ ⟨0, [2], [1]⟩ (by decide)

/-- C10: slicing with `Bounds::all()` (start `None`, end `None`, step 1) on
every dimension is the identity: same base pointer, length vector, and
stride vector. -/
theorem C10_slice_all_is_identity {v : RView}
    (hwf : v.len.length = v.stride.length) :
    NDSlice.slice v (List.replicate v.len.length Bounds.all) =
      Except.ok v :=
  slice_all_identity hwf

theorem C10_witness :
    NDSlice.slice ⟨0, [4, 4], [4, 1]⟩ (List.replicate 2 Bounds.all) =
      Except.ok ⟨0, [4, 4], [4, 1]⟩ :=
  @C10_slice_all_is_identity ⟨0, [4, 4], [4, 1]⟩ rfl

/-- C2: `slice` resolves each dimension's start (default 0), exclusive end
(default the dimension length) and step; it succeeds exactly when every
dimension satisfies `start ≤ end ≤ len` and `step ≠ 0`; the first failing
dimension determines the panic: the range message when its range check
fails, otherwise the step-zero assert; on success each new length is the
stepped range's length, each new stride is the old stride times the step,
and the new base pointer is the old view's location at the per-dimension
starts. -/
theorem C2_slice_spec {v : RView} {bounds : List Bounds}
    (hb : bounds.length = v.len.length)
    (hwf : v.len.length = v.stride.length) :
    ((∃ v2, NDSlice.slice v bounds = Except.ok v2) ↔
      List.Forall₂ axis_ok bounds v.len) ∧
    (∀ d, d < bounds.length →
      (∀ j, j < d → axis_ok (bounds.getD j Bounds.all) (v.len.getD j 0)) →
      ¬range_ok (bounds.getD d Bounds.all) (v.len.getD d 0) →
      NDSlice.slice v bounds = Except.error
        (range_message (bounds.getD d Bounds.all) (v.len.getD d 0))) ∧
    (∀ d, d < bounds.length →
      (∀ j, j < d → axis_ok (bounds.getD j Bounds.all) (v.len.getD j 0)) →
      range_ok (bounds.getD d Bounds.all) (v.len.getD d 0) →
      (bounds.getD d Bounds.all).step = 0 →
      NDSlice.slice v bounds =
        Except.error "assertion failed: step != 0") ∧
    (∀ v2, NDSlice.slice v bounds = Except.ok v2 →
      v2.off = v.off +
        location_offset (bounds.map resolved_start) v.stride ∧
      v2.len = List.zipWith (fun b l => step_count (resolved_start b)
        (resolved_stop b l) b.step) bounds v.len ∧
      v2.stride =
        List.zipWith (fun b s => s * b.step) bounds v.stride) := by
  refine ⟨?_, ?_, ?_, ?_⟩
  · rw [slice_ok_iff_axes]
    exact slice_axes_ok_iff hb hwf
  · intro d hd hpre hbad
    have herr := @slice_axes_error_first bounds v.len v.stride d hb hwf
      hpre hd (fun hax => hbad hax.1)
    rw [if_neg hbad] at herr
    exact slice_error_of_axes herr
  · intro d hd hpre hrange hstep
    have herr := @slice_axes_error_first bounds v.len v.stride d hb hwf
      hpre hd (fun hax => hax.2 hstep)
    rw [if_pos hrange] at herr
    exact slice_error_of_axes herr
  · intro v2 hok
    obtain ⟨dims, hax, hv2⟩ := slice_ok_components hok
    have hdims := slice_axes_ok_val hax
    subst hdims
    obtain ⟨c1, c2, c3⟩ := spec_dims_components bounds v.len v.stride hb hwf
    subst hv2
    exact ⟨by rw [c1], by rw [c2], by rw [c3]⟩

theorem C2_witness :
    NDSlice.slice ⟨0, [4, 4], [4, 1]⟩ [⟨some 1, some 5, 1⟩, Bounds.all] =
      Except.error (range_message ⟨some 1, some 5, 1⟩ 4) :=
  (@C2_slice_spec ⟨0, [4, 4], [4, 1]⟩ [⟨some 1, some 5, 1⟩, Bounds.all]
    rfl rfl).2.1 0 (by decide) (fun j hj => absurd hj (Nat.not_lt_zero j))
    (by decide)

/-- C6: for a derived view over its owned array's allocation, `get` is
present exactly when every index component is below the dimension length;
`index` returns the same element under the same condition and otherwise
fails with `"{coordinate} out of bounds for {length}"` built from the
`Index` and `Len` debug renderings (e.g.
`Index([3, 4]) out of bounds for Len([3, 4])`). -/
theorem C6_get_index_spec {len0 : List Nat} {v : RView} (hv : Derived len0 v)
    {α : Type} (data : List α) (hdata : data.length = size len0)
    (c : List Nat) (hc : c.length = v.len.length) :
    ((NDSlice.get data v c).isSome = true ↔ check_index c v.len = true) ∧
    (check_index c v.len = true →
      NDSlice.index data v c = Except.ok (NDSlice.get data v c)) ∧
    (check_index c v.len = false →
      NDSlice.get data v c = none ∧
      NDSlice.index data v c = Except.error
        (fmtIndex c ++ " out of bounds for " ++ fmtLen v.len)) ∧
    fmtIndex [3, 4] ++ " out of bounds for " ++ fmtLen [3, 4] =
      "Index([3, 4]) out of bounds for Len([3, 4])" := by
  refine ⟨⟨?_, ?_⟩, ?_, ?_, rfl⟩
  · intro h
    by_cases hchk : check_index c v.len = true
    · exact hchk
    · rw [NDSlice.get, if_neg hchk] at h
      cases h
  · intro hchk
    rw [NDSlice.get, if_pos hchk, read_element, getElem?_isSome_iff, hdata]
    exact (derived_wf_and_in_alloc hv).2 c ((check_index_iff hc).mp hchk)
  · intro hchk
    rw [NDSlice.index, NDSlice.get, if_pos hchk, if_pos hchk]
  · intro hchk
    have hne : ¬check_index c v.len = true := by simp [hchk]
    rw [NDSlice.get, if_neg hne, NDSlice.index, if_neg hne]
    exact ⟨rfl, rfl⟩

theorem C6_witness :
    NDSlice.index ([10, 20, 30, 40] : List Int)
        ⟨0, [2, 2], default_stride [2, 2]⟩ [1, 1] =
      Except.ok (NDSlice.get ([10, 20, 30, 40] : List Int)
        ⟨0, [2, 2], default_stride [2, 2]⟩ [1, 1]) :=
  (@C6_get_index_spec [2, 2] ⟨0, [2, 2], default_stride [2, 2]⟩
    Derived.base Int [10, 20, 30, 40] (by decide) [1, 1] rfl).2.1
    (by decide)

/-- C8: `matrix_product` on `A : [r, k]` and `B : [k2, c]` fails exactly when
`k ≠ k2`, with `"Cannot multiply matrices of {lenA} and {lenB}"`; on success
the result has length `[r, c]` and cell `[i, j]` is the sum over the shared
inner dimension of `A[i, m] * B[m, j]`; consequently multiplying by a
compatible identity matrix on either side reproduces the matrix. -/
theorem C8_matrix_product_spec :
    (∀ (α : Type) [NonAssocSemiring α] (d1 d2 : List α) (m1 m2 : RView)
      (r k k2 c : Nat), m1.len = [r, k] → m2.len = [k2, c] →
      (((∃ bx, matrix_product d1 m1 d2 m2 = Except.ok bx) ↔ k = k2) ∧
      (k ≠ k2 → matrix_product d1 m1 d2 m2 = Except.error
        ("Cannot multiply matrices of " ++ fmtLen [r, k] ++ " and " ++
          fmtLen [k2, c])) ∧
      (∀ bx, matrix_product d1 m1 d2 m2 = Except.ok bx →
        bx.len = [r, c] ∧
        ∀ i j, i < r → j < c →
          read_element bx.data bx.as_slice [i, j] =
            some (((List.range k).map fun m =>
              (read_element d1 m1 [i, m]).getD 0 *
              (read_element d2 m2 [m, j]).getD 0).sum)))) ∧
    (∀ (α : Type) [NonAssocSemiring α] [DecidableEq α] (Mdata : List α)
      (r k : Nat), Mdata.length = size [r, k] →
      (∃ bx, matrix_product Mdata (NDBox.mk [r, k] Mdata).as_slice
          (identity_matrix α k).data (identity_matrix α k).as_slice =
          Except.ok bx ∧
        ndslice_eq bx.data bx.as_slice Mdata
          (NDBox.mk [r, k] Mdata).as_slice = true) ∧
      (∃ bx, matrix_product (identity_matrix α r).data
          (identity_matrix α r).as_slice Mdata
          (NDBox.mk [r, k] Mdata).as_slice = Except.ok bx ∧
        ndslice_eq bx.data bx.as_slice Mdata
          (NDBox.mk [r, k] Mdata).as_slice = true)) := by
  constructor
  · intro α _ d1 d2 m1 m2 r k k2 c h1 h2
    have hiff : (∃ bx, matrix_product d1 m1 d2 m2 = Except.ok bx) ↔
        k = k2 := by
      constructor
      · rintro ⟨bx, hbx⟩
        by_contra hk
        rw [matrix_product_error_eq h1 h2 hk] at hbx
        cases hbx
      · intro hk
        subst hk
        exact ⟨_, matrix_product_ok_eq h1 h2⟩
    refine ⟨hiff, fun hk => matrix_product_error_eq h1 h2 hk, ?_⟩
    intro bx hbx
    have hk : k = k2 := hiff.mp ⟨bx, hbx⟩
    subst hk
    rw [matrix_product_ok_eq h1 h2] at hbx
    cases hbx
    refine ⟨rfl, ?_⟩
    intro i j hi hj
    rw [new_with_read [r, c] _
      (List.Forall₂.cons hi (List.Forall₂.cons hj List.Forall₂.nil))]
    simp only [List.getD_cons_zero, List.getD_cons_succ]
  · intro α _ _ Mdata r k hdata
    exact ⟨matrix_product_identity_right Mdata r k hdata,
      matrix_product_identity_left Mdata r k hdata⟩

theorem C8_witness :
    ∃ bx, matrix_product ([1, 2, 3, 4] : List Int)
        (NDBox.mk [2, 2] ([1, 2, 3, 4] : List Int)).as_slice
        (identity_matrix Int 2).data (identity_matrix Int 2).as_slice =
        Except.ok bx ∧
      ndslice_eq bx.data bx.as_slice [1, 2, 3, 4]
        (NDBox.mk [2, 2] ([1, 2, 3, 4] : List Int)).as_slice = true :=
  (C8_matrix_product_spec.2 Int [1, 2, 3, 4] 2 2 (by decide)).1

end NDS
